import Mathlib

/-!
Shallow embedding of the ingredient-matching core of `recipe_finder_app.py`
(functions `normalize_text`, `ingredient_matches`, `find_matching_recipes`),
together with theorems settling the specification claims about it.

Python strings are modelled as lists of characters (`Str`); Python's
substring test `a in b` is modelled by list-infix containment, Python's
`str.split()` by splitting on whitespace and discarding empty chunks, and
Python's stable ascending `list.sort(key=...)` by insertion sort, which is
a stable sort.  `str.lower()` is modelled on the ASCII range, which is the
range the kept-character filter `[^a-z ]` can ever retain.
-/

namespace RecipeFinder

/-- Python strings, modelled as lists of characters (code points). -/
abbrev Str := List Char

/-- The whitespace characters recognised by Python's `str.strip()` and
`str.split()`: space, tab, newline, carriage return, vertical tab, form feed. -/
def isPySpace (c : Char) : Bool :=
  c = ' ' || c = '\t' || c = '\n' || c = '\r' || c = Char.ofNat 11 || c = Char.ofNat 12

/-- Python's `str.lower()` on the ASCII range: map `A`-`Z` to `a`-`z`,
leave every other character unchanged. -/
def pyLower (c : Char) : Char :=
  if 'A' ≤ c && c ≤ 'Z' then Char.ofNat (c.toNat + 32) else c

/-- The characters kept by the substitution `re.sub(r'[^a-z ]', '', s)`:
lowercase ASCII letters and the space character. -/
def isKept (c : Char) : Bool :=
  ('a' ≤ c && c ≤ 'z') || c = ' '

/-- Python's `str.strip()`: remove leading and trailing whitespace. -/
def pyStrip (l : Str) : Str :=
  List.rdropWhile isPySpace (l.dropWhile isPySpace)

/-- Python's `str.split()` (no separator argument): split on runs of
whitespace; no empty chunks are produced. -/
def pySplit (l : Str) : List Str :=
  (l.splitOnP isPySpace).filter (fun w => !w.isEmpty)

/-- Python's substring test `needle in hay` on strings. -/
def pyContains (hay needle : Str) : Bool :=
  decide (needle <:+: hay)

/-- `normalize_text` from `recipe_finder_app.py`:
`return re.sub(r'[^a-z ]', '', text.lower()).strip()`, with the falsy
(empty) early return. -/
def normalize_text (text : Str) : Str :=
  if text.isEmpty then []
  else pyStrip ((text.map pyLower).filter isKept)

/-- `ingredient_matches` from `recipe_finder_app.py`: normalize both sides,
fail on an empty side, try full containment either way, then the word-level
rule with user tokens of length at least 3 against recipe tokens of length
at least 2. -/
def ingredient_matches (user_ing recipe_ing : Str) : Bool :=
  let user := normalize_text user_ing
  let recipe := normalize_text recipe_ing
  if user.isEmpty || recipe.isEmpty then false
  else if pyContains recipe user || pyContains user recipe then true
  else
    let user_words := (pySplit user).filter (fun w => decide (3 ≤ w.length))
    let recipe_words := (pySplit recipe).filter (fun w => decide (2 ≤ w.length))
    user_words.any (fun uw => recipe_words.any (fun rw => pyContains rw uw || pyContains uw rw))

/-- One record of the recipe catalog: the fields of `recipes_data.json`
that `find_matching_recipes` reads. -/
structure RecipeRecord where
  name : Str
  filename : Str
  ingredients_normalized : List Str
deriving DecidableEq

/-- One entry of the result list built by `find_matching_recipes`. -/
structure MatchResult where
  name : Str
  filename : Str
  matched : List Str
  other : List Str
  total : Nat
deriving DecidableEq

/-- The inner loop over `normalized` for one user ingredient: the first
recipe ingredient for which `ingredient_matches` holds, if any. -/
def firstMatch (ings : List Str) (user_ing : Str) : Option Str :=
  ings.find? (fun recipe_ing => ingredient_matches user_ing recipe_ing)

/-- The loop over the user ingredients: collect the first match for each
user ingredient in order, failing as soon as one user ingredient has no
match (the Python loop sets `has_all = False` and breaks). -/
def matchAll (ings : List Str) : List Str → Option (List Str)
  | [] => some []
  | u :: us =>
    match firstMatch ings u with
    | none => none
    | some r =>
      match matchAll ings us with
      | none => none
      | some rest => some (r :: rest)

/-- The per-recipe body of `find_matching_recipes`: skip a recipe with an
empty normalized ingredient list, otherwise succeed exactly when every user
ingredient found a match, assembling the result record. -/
def processRecipe (user_ingredients : List Str) (recipe : RecipeRecord) : Option MatchResult :=
  let normalized := recipe.ingredients_normalized
  if normalized.isEmpty then none
  else
    match matchAll normalized user_ingredients with
    | none => none
    | some matched =>
      some { name := recipe.name
             filename := recipe.filename
             matched := matched
             other := normalized.filter (fun ing => !(matched.contains ing))
             total := normalized.length }

/-- Python's `<` on strings: code-point lexicographic comparison. -/
def strLt : Str → Str → Bool
  | _, [] => false
  | [], _ :: _ => true
  | a :: as, b :: bs =>
    if a.toNat < b.toNat then true
    else if b.toNat < a.toNat then false
    else strLt as bs

/-- The comparison `results.sort(key=lambda x: x['name'])` sorts by: result
`x` may precede result `y` when the name of `y` is not `<` the name of `x`. -/
def nameLe (x y : MatchResult) : Prop :=
  strLt y.name x.name = false

instance : DecidableRel nameLe := fun x y => by
  unfold nameLe; infer_instance

/-- Python's `results.sort(key=lambda x: x['name'])`: a stable ascending
sort by name, modelled by insertion sort (a stable sort). -/
def sortByName (l : List MatchResult) : List MatchResult :=
  l.insertionSort nameLe

/-- `find_matching_recipes` from `recipe_finder_app.py`. -/
def find_matching_recipes (recipes : List RecipeRecord) (user_ingredients : List Str) :
    List MatchResult :=
  if user_ingredients.isEmpty then []
  else sortByName (recipes.filterMap (processRecipe user_ingredients))

/-! ### Order facts about the name comparison -/

lemma char_eq_of_toNat_eq {a b : Char} (h : a.toNat = b.toNat) : a = b := by
  have ha := Char.ofNat_toNat a
  rw [h, Char.ofNat_toNat] at ha
  exact ha.symm

lemma strLt_irrefl : ∀ l : Str, strLt l l = false
  | [] => rfl
  | a :: as => by simp [strLt, strLt_irrefl as]

lemma strLt_asymm : ∀ a b : Str, strLt a b = true → strLt b a = false := by
  intro a
  induction a with
  | nil =>
    intro b h
    cases b with
    | nil => simp [strLt] at h
    | cons y ys => simp [strLt]
  | cons x xs ih =>
    intro b h
    cases b with
    | nil => simp [strLt] at h
    | cons y ys =>
      rcases Nat.lt_trichotomy x.toNat y.toNat with h1 | h1 | h1
      · simp [strLt, h1, Nat.lt_asymm h1]
      · have hx : x = y := char_eq_of_toNat_eq h1
        subst hx
        simp only [strLt, Nat.lt_irrefl, if_false] at h ⊢
        exact ih ys h
      · simp [strLt, h1, Nat.lt_asymm h1] at h

lemma strLt_trans : ∀ a b c : Str, strLt a b = true → strLt b c = true → strLt a c = true := by
  intro a
  induction a with
  | nil =>
    intro b c hab hbc
    cases b with
    | nil => simp [strLt] at hab
    | cons y ys =>
      cases c with
      | nil => simp [strLt] at hbc
      | cons z zs => simp [strLt]
  | cons x xs ih =>
    intro b c hab hbc
    cases b with
    | nil => simp [strLt] at hab
    | cons y ys =>
      cases c with
      | nil => simp [strLt] at hbc
      | cons z zs =>
        rcases Nat.lt_trichotomy x.toNat y.toNat with h1 | h1 | h1 <;>
          rcases Nat.lt_trichotomy y.toNat z.toNat with h2 | h2 | h2
        · simp [strLt, Nat.lt_trans h1 h2, Nat.lt_asymm (Nat.lt_trans h1 h2)]
        · have hy : y = z := char_eq_of_toNat_eq h2
          subst hy
          simp [strLt, h1, Nat.lt_asymm h1]
        · simp [strLt, h2, Nat.lt_asymm h2] at hbc
        · have hx : x = y := char_eq_of_toNat_eq h1
          subst hx
          simp [strLt, h2, Nat.lt_asymm h2]
        · have hx : x = y := char_eq_of_toNat_eq h1
          have hy : y = z := char_eq_of_toNat_eq h2
          subst hx; subst hy
          simp only [strLt, Nat.lt_irrefl, if_false] at hab hbc ⊢
          exact ih ys zs hab hbc
        · simp [strLt, h2, Nat.lt_asymm h2] at hbc
        · simp [strLt, h1, Nat.lt_asymm h1] at hab
        · simp [strLt, h1, Nat.lt_asymm h1] at hab
        · simp [strLt, h1, Nat.lt_asymm h1] at hab

lemma strLt_trichotomy : ∀ a b : Str, strLt a b = true ∨ a = b ∨ strLt b a = true := by
  intro a
  induction a with
  | nil =>
    intro b
    cases b with
    | nil => exact Or.inr (Or.inl rfl)
    | cons y ys => exact Or.inl (by simp [strLt])
  | cons x xs ih =>
    intro b
    cases b with
    | nil => exact Or.inr (Or.inr (by simp [strLt]))
    | cons y ys =>
      rcases Nat.lt_trichotomy x.toNat y.toNat with h1 | h1 | h1
      · exact Or.inl (by simp [strLt, h1])
      · have hx : x = y := char_eq_of_toNat_eq h1
        subst hx
        rcases ih ys with h | h | h
        · exact Or.inl (by simp [strLt, Nat.lt_irrefl, h])
        · exact Or.inr (Or.inl (by rw [h]))
        · exact Or.inr (Or.inr (by simp [strLt, Nat.lt_irrefl, h]))
      · exact Or.inr (Or.inr (by simp [strLt, h1]))

instance : IsTotal MatchResult nameLe := by
  constructor
  intro x y
  unfold nameLe
  rcases strLt_trichotomy x.name y.name with h | h | h
  · exact Or.inl (strLt_asymm _ _ h)
  · exact Or.inl (by rw [h, strLt_irrefl])
  · exact Or.inr (strLt_asymm _ _ h)

instance : IsTrans MatchResult nameLe := by
  constructor
  intro x y z hxy hyz
  unfold nameLe at hxy hyz ⊢
  rcases strLt_trichotomy z.name x.name with h | h | h
  · rcases strLt_trichotomy z.name y.name with h2 | h2 | h2
    · rw [h2] at hyz; cases hyz
    · rw [← h2, h] at hxy; cases hxy
    · have := strLt_trans _ _ _ h2 h
      rw [this] at hxy; cases hxy
  · rw [h]; exact strLt_irrefl _
  · exact strLt_asymm _ _ h

/-- The result list of the sort is pairwise `nameLe`. -/
lemma pairwise_sortByName (l : List MatchResult) :
    List.Pairwise nameLe (sortByName l) :=
  List.sorted_insertionSort nameLe l

/-- Stability of the sort: the results bearing one fixed name keep their
relative order across the sort. -/
lemma sortByName_filter_name (l : List MatchResult) (n : Str) :
    (sortByName l).filter (fun m => decide (m.name = n)) =
      l.filter (fun m => decide (m.name = n)) := by
  set p : MatchResult → Bool := fun m => decide (m.name = n) with hp
  have hmem : ∀ m ∈ l.filter p, m.name = n := by
    intro m hm
    have := (List.mem_filter.mp hm).2
    simpa [hp] using this
  have hpair : (l.filter p).Pairwise nameLe := by
    apply List.pairwise_of_forall_mem_list
    intro a ha b hb
    unfold nameLe
    rw [hmem a ha, hmem b hb, strLt_irrefl]
  have hsub : List.Sublist (l.filter p) (sortByName l) :=
    List.sublist_insertionSort hpair (List.filter_sublist l)
  have hsub2 : List.Sublist (l.filter p) ((sortByName l).filter p) := by
    have : (l.filter p).filter p = l.filter p := by
      rw [List.filter_filter]
      apply List.filter_congr
      intro a _
      simp [Bool.and_self]
    rw [← this]
    exact hsub.filter p
  have hperm : List.Perm ((sortByName l).filter p) (l.filter p) :=
    (List.perm_insertionSort nameLe l).filter p
  exact ((hsub2.eq_of_length hperm.length_eq.symm)).symm

/-! ### The matching loop -/

lemma matchAll_exists_iff (ings : List Str) (users : List Str) :
    (∃ l, matchAll ings users = some l) ↔
      ∀ u ∈ users, ∃ r ∈ ings, ingredient_matches u r = true := by
  induction users with
  | nil => simp [matchAll]
  | cons u us ih =>
    cases hf : firstMatch ings u with
    | none =>
      have hnone : ∀ r ∈ ings, ¬ ingredient_matches u r = true := by
        have h := hf
        unfold firstMatch at h
        rw [List.find?_eq_none] at h
        exact h
      constructor
      · rintro ⟨l, hl⟩
        rw [matchAll, hf] at hl
        cases hl
      · intro h
        obtain ⟨r, hr, hm⟩ := h u (List.mem_cons_self u us)
        exact absurd hm (hnone r hr)
    | some r =>
      have hr : r ∈ ings ∧ ingredient_matches u r = true := by
        have h := hf
        unfold firstMatch at h
        exact ⟨List.mem_of_find?_eq_some h, List.find?_some h⟩
      constructor
      · rintro ⟨l, hl⟩
        rw [matchAll, hf] at hl
        cases hm : matchAll ings us with
        | none => rw [hm] at hl; cases hl
        | some rest =>
          intro v hv
          rcases List.mem_cons.mp hv with hv | hv
          · subst hv; exact ⟨r, hr.1, hr.2⟩
          · exact (ih.mp ⟨rest, hm⟩) v hv
      · intro h
        obtain ⟨rest, hrest⟩ := ih.mpr (fun v hv => h v (List.mem_cons_of_mem _ hv))
        exact ⟨r :: rest, by rw [matchAll, hf, hrest]⟩

lemma matchAll_forall₂ (ings : List Str) :
    ∀ (users l : List Str), matchAll ings users = some l →
      List.Forall₂ (fun u r => ings.find? (fun x => ingredient_matches u x) = some r) users l := by
  intro users
  induction users with
  | nil =>
    intro l h
    rw [matchAll] at h
    cases h
    exact List.Forall₂.nil
  | cons u us ih =>
    intro l h
    rw [matchAll] at h
    cases hf : firstMatch ings u with
    | none => rw [hf] at h; cases h
    | some r =>
      rw [hf] at h
      cases hm : matchAll ings us with
      | none => rw [hm] at h; cases h
      | some rest =>
        rw [hm] at h
        cases h
        exact List.Forall₂.cons hf (ih rest hm)

lemma processRecipe_eq_some_iff {users : List Str} {R : RecipeRecord} {m : MatchResult} :
    processRecipe users R = some m ↔
      R.ingredients_normalized ≠ [] ∧
      ∃ matched, matchAll R.ingredients_normalized users = some matched ∧
        m = { name := R.name, filename := R.filename, matched := matched,
              other := R.ingredients_normalized.filter (fun ing => !(matched.contains ing)),
              total := R.ingredients_normalized.length } := by
  unfold processRecipe
  by_cases h : R.ingredients_normalized = []
  · simp [h]
  · cases hm : matchAll R.ingredients_normalized users with
    | none =>
      simp only [List.isEmpty_eq_true, h, if_false, hm]
      constructor
      · intro hc; cases hc
      · rintro ⟨-, matched, hm', -⟩; cases hm'
    | some matched =>
      simp only [List.isEmpty_eq_true, h, if_false, hm]
      constructor
      · intro hsome
        injection hsome with hsome
        exact ⟨h, matched, rfl, hsome.symm⟩
      · rintro ⟨-, matched', hm', rfl⟩
        injection hm' with hm'
        subst hm'
        rfl

lemma mem_find_matching_iff {recipes : List RecipeRecord} {users : List Str} {m : MatchResult} :
    m ∈ find_matching_recipes recipes users ↔
      users ≠ [] ∧ ∃ R ∈ recipes, processRecipe users R = some m := by
  unfold find_matching_recipes
  by_cases h : users = []
  · simp [h]
  · simp [h, sortByName, List.mem_filterMap]

/-! ### Code-point order, the order Python compares strings with -/

/-- Code-point order on characters. -/
def codepointLt (a b : Char) : Prop := a.toNat < b.toNat

lemma strLt_iff_lex : ∀ a b : Str, strLt a b = true ↔ List.Lex codepointLt a b := by
  intro a
  induction a with
  | nil =>
    intro b
    cases b with
    | nil =>
      constructor
      · intro h; simp [strLt] at h
      · intro h; cases h
    | cons y ys =>
      constructor
      · intro _; exact List.Lex.nil
      · intro _; simp [strLt]
  | cons x xs ih =>
    intro b
    cases b with
    | nil =>
      constructor
      · intro h; simp [strLt] at h
      · intro h; cases h
    | cons y ys =>
      constructor
      · intro h
        rcases Nat.lt_trichotomy x.toNat y.toNat with h1 | h1 | h1
        · exact List.Lex.rel h1
        · have hx : x = y := char_eq_of_toNat_eq h1
          subst hx
          simp only [strLt, Nat.lt_irrefl, if_false] at h
          exact List.Lex.cons ((ih ys).mp h)
        · simp [strLt, h1, Nat.lt_asymm h1] at h
      · intro h
        cases h with
        | cons h1 =>
          simp only [strLt, Nat.lt_irrefl, if_false]
          exact (ih ys).mpr h1
        | rel h1 =>
          have h2 : x.toNat < y.toNat := h1
          simp [strLt, h2]

lemma nameLe_to_spec {x y : MatchResult} (h : nameLe x y) :
    x.name = y.name ∨ List.Lex codepointLt x.name y.name := by
  unfold nameLe at h
  rcases strLt_trichotomy x.name y.name with h1 | h1 | h1
  · exact Or.inr ((strLt_iff_lex _ _).mp h1)
  · exact Or.inl h1
  · rw [h1] at h; cases h

/-! ### Facts about normalization -/

lemma pyStrip_nil : pyStrip [] = [] := by
  simp [pyStrip]

lemma pyStrip_subset {l : Str} {x : Char} (hx : x ∈ pyStrip l) : x ∈ l := by
  unfold pyStrip at hx
  have h1 := List.rdropWhile_prefix isPySpace (l.dropWhile isPySpace)
  exact (List.dropWhile_sublist _).subset (h1.sublist.subset hx)

lemma normalize_text_mem_isKept {s : Str} : ∀ c ∈ normalize_text s, isKept c = true := by
  intro c hc
  unfold normalize_text at hc
  by_cases h : s.isEmpty
  · simp [h] at hc
  · rw [if_neg h] at hc
    exact (List.mem_filter.mp (pyStrip_subset hc)).2

lemma pyLower_of_isKept {c : Char} (h : isKept c = true) : pyLower c = c := by
  simp only [isKept, Bool.or_eq_true, Bool.and_eq_true, decide_eq_true_eq] at h
  unfold pyLower
  rcases h with ⟨h1, _⟩ | h1
  · rw [if_neg]
    simp only [Bool.and_eq_true, decide_eq_true_eq, not_and]
    intro _ h4
    exact absurd (le_trans h1 h4) (by decide)
  · subst h1; rfl

lemma dropWhile_pyStrip (l : Str) : (pyStrip l).dropWhile isPySpace = pyStrip l := by
  unfold pyStrip
  cases h : List.rdropWhile isPySpace (l.dropWhile isPySpace) with
  | nil => simp
  | cons x xs =>
    rw [List.dropWhile_cons_of_neg]
    have hpre := List.rdropWhile_prefix isPySpace (l.dropWhile isPySpace)
    rw [h] at hpre
    obtain ⟨t, ht⟩ := hpre
    have h2 := List.head?_dropWhile_not isPySpace l
    rw [← ht] at h2
    simp at h2
    simp [h2]

lemma pyStrip_idem (l : Str) : pyStrip (pyStrip l) = pyStrip l := by
  conv_lhs => rw [pyStrip]
  rw [dropWhile_pyStrip]
  conv_lhs => rw [pyStrip]
  exact List.rdropWhile_idempotent isPySpace (l.dropWhile isPySpace)

lemma normalize_eq_spec_form {s : Str} (h : ¬ s.isEmpty = true) :
    normalize_text s = pyStrip ((s.map pyLower).filter isKept) := by
  unfold normalize_text
  rw [if_neg h]

/-- The Normalizer as the specification words it: lower-case the input,
remove every character that is not a lowercase letter `a`-`z` or a space,
then trim leading and trailing whitespace. -/
def normalizeSpec (s : Str) : Str :=
  pyStrip (List.filter (fun c => decide (('a' ≤ c ∧ c ≤ 'z') ∨ c = ' ')) (s.map pyLower))

lemma isKept_eq_decide (c : Char) :
    isKept c = decide (('a' ≤ c ∧ c ≤ 'z') ∨ c = ' ') := by
  simp [isKept, Bool.decide_or, Bool.decide_and]

lemma normalize_eq_normalizeSpec (s : Str) : normalize_text s = normalizeSpec s := by
  unfold normalizeSpec
  have hfilter : (s.map pyLower).filter isKept
      = (s.map pyLower).filter (fun c => decide (('a' ≤ c ∧ c ≤ 'z') ∨ c = ' ')) := by
    apply List.filter_congr
    intro c _
    exact isKept_eq_decide c
  by_cases h : s.isEmpty = true
  · have hs : s = [] := by simpa using h
    subst hs
    simp [normalize_text, pyStrip_nil]
  · rw [normalize_eq_spec_form h, hfilter]

end RecipeFinder

namespace RecipeFinder

/-- C3: for every input string, `normalize` lower-cases, keeps only the
lowercase letters and spaces, and trims surrounding whitespace, as the
spec-side `normalizeSpec` does; in particular the two quoted example
evaluations hold. -/
theorem claim_normalize_behaviour :
    (∀ s : Str, normalize_text s = normalizeSpec s) ∧
    normalize_text [] = [] ∧
    normalize_text ( "1 Cup All-Purpose Flour!".toList) = "cup allpurpose flour".toList :=
  ⟨normalize_eq_normalizeSpec, rfl, by decide⟩

/-- C9: `normalize` is idempotent. -/
theorem claim_normalize_idem (s : Str) :
    normalize_text (normalize_text s) = normalize_text s := by
  by_cases ht : normalize_text s = []
  · rw [ht]; rfl
  · have hkept := @normalize_text_mem_isKept s
    have hne : ¬ (normalize_text s).isEmpty = true := by simpa using ht
    rw [normalize_eq_spec_form hne]
    have hmap : (normalize_text s).map pyLower = normalize_text s := by
      have h2 := List.map_congr_left (l := normalize_text s) (f := pyLower) (g := id)
        (fun c hc => pyLower_of_isKept (hkept c hc))
      simpa using h2
    rw [hmap, List.filter_eq_self.mpr hkept]
    have hsform : normalize_text s = pyStrip ((s.map pyLower).filter isKept) := by
      apply normalize_eq_spec_form
      intro hs
      apply ht
      unfold normalize_text
      rw [if_pos hs]
    rw [hsform, pyStrip_idem]

/-- C2: `ingredientMatches(a, b)` holds exactly when both normalized
strings are non-empty and either one is a substring of the other, or, only
when containment fails, some whitespace token of the normalized user string
of length at least 3 and some whitespace token of the normalized recipe
string of length at least 2 have one a substring of the other. -/
theorem claim_ingredient_matches_iff (a b : Str) :
    ingredient_matches a b = true ↔
      (normalize_text a ≠ [] ∧ normalize_text b ≠ [] ∧
        ((normalize_text a <:+: normalize_text b ∨ normalize_text b <:+: normalize_text a) ∨
          (¬ (normalize_text a <:+: normalize_text b ∨ normalize_text b <:+: normalize_text a) ∧
            ∃ tu ∈ pySplit (normalize_text a), 3 ≤ tu.length ∧
              ∃ tr ∈ pySplit (normalize_text b), 2 ≤ tr.length ∧
                (tu <:+: tr ∨ tr <:+: tu)))) := by
  unfold ingredient_matches
  by_cases hu : normalize_text a = []
  · simp [hu]
  · by_cases hr : normalize_text b = []
    · simp [hu, hr]
    · have hu' : (normalize_text a).isEmpty = false := by simpa using hu
      have hr' : (normalize_text b).isEmpty = false := by simpa using hr
      by_cases hc : (normalize_text a <:+: normalize_text b ∨
          normalize_text b <:+: normalize_text a)
      · simp [hu, hr, hu', hr', pyContains, hc]
      · simp [hu, hr, hu', hr', pyContains, hc, List.any_eq_true, List.mem_filter,
          and_assoc, not_or]

/-- C4, counterexample: contrary to the claim,
`ingredientMatches("ox", "fox meat")` does not return false. -/
theorem claim_ox_fox_counterexample :
    ingredient_matches ( "ox".toList) ( "fox meat".toList) ≠ false := by decide

/-- C4, amended: `ingredientMatches("ox", "fox meat")` returns true, by
the containment rule: the normalized user string `"ox"` is a substring of
the normalized recipe string `"fox meat"`. -/
theorem claim_ox_fox_amended :
    ingredient_matches ( "ox".toList) ( "fox meat".toList) = true ∧
      "ox".toList <:+: "fox meat".toList := by decide

/-- C10: `ingredientMatches` is not commutative; the token-overlap rule
keeps user tokens of length at least 3 but recipe tokens of length at
least 2, so `"oxtail soup"` matches `"ox stew"` but not conversely. -/
theorem claim_not_commutative :
    ingredient_matches ( "oxtail soup".toList) ( "ox stew".toList) = true ∧
    ingredient_matches ( "ox stew".toList) ( "oxtail soup".toList) = false ∧
    ∃ a b : Str, ingredient_matches a b ≠ ingredient_matches b a := by
  refine ⟨by decide, by decide, "oxtail soup".toList, "ox stew".toList, by decide⟩

/-! ### Concrete fixtures used by the witnesses -/

/-- A one-recipe catalog whose single ingredient is `"tomato"`. -/
def catalogA : List RecipeRecord :=
  [⟨ "A".toList, "a.pdf".toList, [ "tomato".toList]⟩]

/-- Two user ingredients that both match the single ingredient of
`catalogA`. -/
def usersTT : List Str := [ "tomato".toList, "tomatoes".toList]

/-- The result `find_matching_recipes catalogA usersTT` produces. -/
def resultA : MatchResult :=
  ⟨ "A".toList, "a.pdf".toList, [ "tomato".toList, "tomato".toList], [], 1⟩

/-- A catalog entry listing `"tomato"` twice. -/
def catalogB : List RecipeRecord :=
  [⟨ "A".toList, "a.pdf".toList,
    [ "tomato".toList, "tomato".toList, "basil".toList]⟩]

/-- The result `find_matching_recipes catalogB [ "tomato"]` produces. -/
def resultB : MatchResult :=
  ⟨ "A".toList, "a.pdf".toList, [ "tomato".toList], [ "basil".toList], 3⟩

/-- A two-recipe catalog listed in anti-alphabetical order. -/
def catalogBA : List RecipeRecord :=
  [⟨ "Banana Bread".toList, "b.pdf".toList, [ "flour".toList]⟩,
   ⟨ "Apple Pie".toList, "a.pdf".toList, [ "flour".toList]⟩]

/-- The tomato-soup recipe of the spec's end-to-end example. -/
def soupRec : RecipeRecord :=
  ⟨ "Tomato Soup".toList, "t.pdf".toList,
    [ "tomato".toList, "cream".toList, "basil".toList]⟩

/-- The user list of the spec's end-to-end example. -/
def tomatoBasil : List Str := [ "tomato".toList, "basil".toList]

/-! ### Claims about the recipe filter -/

/-- C1: for every catalog and every non-empty user ingredient list, a
recipe yields a result in the output of `findMatchingRecipes` iff every
user ingredient matches at least one of the recipe's normalized
ingredients (a recipe ingredient may be shared across user ingredients). -/
theorem claim_recipe_in_output_iff (recipes : List RecipeRecord) (users : List Str)
    (R : RecipeRecord) (hu : users ≠ []) (hR : R ∈ recipes) :
    (∃ m, processRecipe users R = some m ∧
        m ∈ find_matching_recipes recipes users) ↔
      ∀ u ∈ users, ∃ r ∈ R.ingredients_normalized, ingredient_matches u r = true := by
  constructor
  · rintro ⟨m, hm, -⟩
    obtain ⟨hne, matched, hmatch, -⟩ := processRecipe_eq_some_iff.mp hm
    exact (matchAll_exists_iff _ _).mp ⟨matched, hmatch⟩
  · intro h
    have hne : R.ingredients_normalized ≠ [] := by
      obtain ⟨u, hu0⟩ := List.exists_mem_of_ne_nil users hu
      obtain ⟨r, hr, -⟩ := h u hu0
      exact List.ne_nil_of_mem hr
    obtain ⟨matched, hmatch⟩ := (matchAll_exists_iff R.ingredients_normalized users).mpr h
    refine ⟨_, processRecipe_eq_some_iff.mpr ⟨hne, matched, hmatch, rfl⟩,
      mem_find_matching_iff.mpr
        ⟨hu, R, hR, processRecipe_eq_some_iff.mpr ⟨hne, matched, hmatch, rfl⟩⟩⟩

/-- Witness for C1 at the spec's end-to-end example. -/
theorem claim_recipe_in_output_iff_witness :
    (∃ m, processRecipe tomatoBasil soupRec = some m ∧
        m ∈ find_matching_recipes [soupRec] tomatoBasil) ↔
      ∀ u ∈ tomatoBasil, ∃ r ∈ soupRec.ingredients_normalized,
        ingredient_matches u r = true :=
  claim_recipe_in_output_iff [soupRec] tomatoBasil soupRec (by decide) (by decide)

/-- C5: every result of `findMatchingRecipes` carries one matched entry per
user ingredient, in the order the user ingredients were supplied, each the
first recipe ingredient (in stored order) that matches; duplicates appear
when two user ingredients map to the same recipe ingredient. -/
theorem claim_matched_first_wins :
    (∀ (recipes : List RecipeRecord) (users : List Str) (m : MatchResult),
        m ∈ find_matching_recipes recipes users →
        ∃ R ∈ recipes, processRecipe users R = some m ∧
          m.matched.length = users.length ∧
          List.Forall₂ (fun u r =>
              R.ingredients_normalized.find? (fun x => ingredient_matches u x) = some r)
            users m.matched) ∧
    (find_matching_recipes catalogA usersTT).map (fun m => m.matched) =
      [[ "tomato".toList, "tomato".toList]] := by
  constructor
  · intro recipes users m hm
    obtain ⟨-, R, hR, hpr⟩ := mem_find_matching_iff.mp hm
    obtain ⟨hne, matched, hmatch, hmeq⟩ := processRecipe_eq_some_iff.mp hpr
    subst hmeq
    exact ⟨R, hR, hpr, ((matchAll_forall₂ _ _ _ hmatch).length_eq).symm,
      matchAll_forall₂ _ _ _ hmatch⟩
  · decide

/-- Witness for C5: the concrete duplicate-producing example, with the
first-match description instantiated. -/
theorem claim_matched_first_wins_witness :
    resultA ∈ find_matching_recipes catalogA usersTT ∧
    ∃ R ∈ catalogA, processRecipe usersTT R = some resultA ∧
      resultA.matched.length = usersTT.length ∧
      List.Forall₂ (fun u r =>
          R.ingredients_normalized.find? (fun x => ingredient_matches u x) = some r)
        usersTT resultA.matched :=
  have h : resultA ∈ find_matching_recipes catalogA usersTT := by decide
  ⟨h, claim_matched_first_wins.1 catalogA usersTT resultA h⟩

/-- C6: every result's `otherIngredients` is the subsequence of the
recipe's normalized ingredients whose string value does not occur in
`matchedIngredients`, tested by exact string equality; an ingredient
occurring twice and matched once is excluded entirely. -/
theorem claim_other_ingredients :
    (∀ (recipes : List RecipeRecord) (users : List Str) (m : MatchResult),
        m ∈ find_matching_recipes recipes users →
        ∃ R ∈ recipes, processRecipe users R = some m ∧
          m.other = R.ingredients_normalized.filter
            (fun ing => decide (ing ∉ m.matched))) ∧
    (find_matching_recipes catalogB [ "tomato".toList]).map (fun m => m.other) =
      [[ "basil".toList]] := by
  constructor
  · intro recipes users m hm
    obtain ⟨-, R, hR, hpr⟩ := mem_find_matching_iff.mp hm
    obtain ⟨hne, matched, hmatch, hmeq⟩ := processRecipe_eq_some_iff.mp hpr
    subst hmeq
    refine ⟨R, hR, hpr, List.filter_congr ?_⟩
    intro ing _
    simp [List.contains, List.elem_eq_mem, decide_not]
  · decide

/-- Witness for C6 at the duplicated-ingredient example. -/
theorem claim_other_ingredients_witness :
    resultB ∈ find_matching_recipes catalogB [ "tomato".toList] ∧
    ∃ R ∈ catalogB, processRecipe [ "tomato".toList] R = some resultB ∧
      resultB.other = R.ingredients_normalized.filter
        (fun ing => decide (ing ∉ resultB.matched)) :=
  have h : resultB ∈ find_matching_recipes catalogB [ "tomato".toList] := by decide
  ⟨h, claim_other_ingredients.1 catalogB [ "tomato".toList] resultB h⟩

/-- C7: the output is sorted by name in ascending case-sensitive
(code-point) lexicographic order, equal names keep their relative catalog
order, and the Banana Bread / Apple Pie example sorts Apple Pie first. -/
theorem claim_sorted_stable :
    (∀ (recipes : List RecipeRecord) (users : List Str),
        List.Pairwise (fun x y : MatchResult =>
            x.name = y.name ∨ List.Lex codepointLt x.name y.name)
          (find_matching_recipes recipes users)) ∧
    (∀ (recipes : List RecipeRecord) (users : List Str) (n : Str), users ≠ [] →
        (find_matching_recipes recipes users).filter (fun m => decide (m.name = n)) =
          (recipes.filterMap (processRecipe users)).filter
            (fun m => decide (m.name = n))) ∧
    (find_matching_recipes catalogBA [ "flour".toList]).map (fun m => m.name) =
      [ "Apple Pie".toList, "Banana Bread".toList] := by
  refine ⟨?_, ?_, by decide⟩
  · intro recipes users
    unfold find_matching_recipes
    by_cases h : users.isEmpty
    · rw [if_pos h]; exact List.Pairwise.nil
    · rw [if_neg h]
      exact (pairwise_sortByName _).imp (fun hle => nameLe_to_spec hle)
  · intro recipes users n hu
    unfold find_matching_recipes
    rw [if_neg (by simpa using hu)]
    exact sortByName_filter_name _ n

/-- Witness for C7: stability instantiated at the two-recipe catalog. -/
theorem claim_sorted_stable_witness :
    (find_matching_recipes catalogBA [ "flour".toList]).filter
        (fun m => decide (m.name = "Apple Pie".toList)) =
      (catalogBA.filterMap (processRecipe [ "flour".toList])).filter
        (fun m => decide (m.name = "Apple Pie".toList)) :=
  claim_sorted_stable.2.1 catalogBA [ "flour".toList] ( "Apple Pie".toList) (by decide)

/-- C8: an empty user list or an empty catalog yields the empty output, and
a recipe with an empty normalized ingredient list is skipped, so every
result counts at least one ingredient. -/
theorem claim_empty_inputs :
    (∀ recipes : List RecipeRecord, find_matching_recipes recipes [] = []) ∧
    (∀ users : List Str, find_matching_recipes [] users = []) ∧
    (∀ (users : List Str) (R : RecipeRecord),
        R.ingredients_normalized = [] → processRecipe users R = none) ∧
    (∀ (recipes : List RecipeRecord) (users : List Str) (m : MatchResult),
        m ∈ find_matching_recipes recipes users → 0 < m.total) := by
  refine ⟨fun recipes => rfl, ?_, ?_, ?_⟩
  · intro users
    cases users with
    | nil => rfl
    | cons u us => rfl
  · intro users R h
    simp only [processRecipe, List.isEmpty_eq_true, h, if_true]
  · intro recipes users m hm
    obtain ⟨-, R, -, hpr⟩ := mem_find_matching_iff.mp hm
    obtain ⟨hne, matched, -, hmeq⟩ := processRecipe_eq_some_iff.mp hpr
    subst hmeq
    simpa using List.length_pos.mpr hne

/-- Witness for C8: the skip rule and the positive-count consequence at
concrete inputs. -/
theorem claim_empty_inputs_witness :
    processRecipe usersTT ⟨ "Empty".toList, "e.pdf".toList, []⟩ = none ∧
    0 < resultA.total :=
  ⟨claim_empty_inputs.2.2.1 usersTT ⟨ "Empty".toList, "e.pdf".toList, []⟩ rfl,
   claim_empty_inputs.2.2.2 catalogA usersTT resultA (by decide)⟩

end RecipeFinder

